import Mathlib

/-
  Shallow embedding of src/paddleslim/prune/auto_pruner.py (class AutoPruner).

  Python floats are IEEE-754 binary64 values.  They are modelled here as the
  exact rational values they denote, and every float operation rounds its
  exact rational result to 53 significant binary digits, to nearest, ties to
  even (`double_of` below).  The exponent range is unbounded (no overflow,
  no subnormals); on the magnitudes this program manipulates (between 10⁻³
  and 10², far inside the binary64 normal range) this coincides exactly with
  binary64 arithmetic.  Python `int()` applied to a float truncates toward
  zero.  All definitions avoid the `@[irreducible]` rational operations so
  that concrete runs evaluate by kernel reduction.
-/

/-! ### IEEE binary64 model -/

/-- Number of binary digits of `n` (`⌊log₂ n⌋ + 1` for `n ≥ 1`), computed
with structural fuel so that it evaluates by kernel reduction. -/
def bitsAux : ℕ → ℕ → ℕ
  | 0, _ => 0
  | fuel + 1, n => if n = 0 then 0 else bitsAux fuel (n / 2) + 1

/-- Bit length of a natural number. -/
def natBits (n : ℕ) : ℕ := bitsAux n n

/-- Round the ratio `N / D` (`D ≠ 0`) to the nearest natural number,
ties to even. -/
def rne (N D : ℕ) : ℕ :=
  let f := N / D
  let r := N % D
  if 2 * r < D then f
  else if D < 2 * r then f + 1
  else if f % 2 = 0 then f else f + 1

/-- `⌊log₂ (n / d)⌋` for positive naturals `n`, `d`. -/
def ratLog2 (n d : ℕ) : ℤ :=
  let e0 : ℤ := (natBits n : ℤ) - (natBits d : ℤ)
  if d * 2 ^ e0.toNat ≤ n * 2 ^ (-e0).toNat then e0 else e0 - 1

/-- Round the positive ratio `n / d` to 53 significant binary digits,
to nearest, ties to even. -/
def double_mag (n d : ℕ) : ℚ :=
  let k : ℤ := ratLog2 n d - 52
  mkRat (rne (n * 2 ^ (-k).toNat) (d * 2 ^ k.toNat) * 2 ^ k.toNat : ℕ) (2 ^ (-k).toNat)

/-- Round a rational to the nearest binary64 value (round to nearest, ties
to even, unbounded exponent range). -/
def double_of (q : ℚ) : ℚ :=
  if q = 0 then 0
  else if 0 ≤ q.num then double_mag q.num.natAbs q.den
  else -double_mag q.num.natAbs q.den

/-- Python float multiplication: the exact product, rounded to binary64. -/
def fmul (x y : ℚ) : ℚ :=
  double_of (Rat.divInt (x.num * y.num) ((x.den : ℤ) * (y.den : ℤ)))

/-- Python float division: the exact quotient, rounded to binary64. -/
def fdiv (x y : ℚ) : ℚ :=
  double_of (Rat.divInt (x.num * (y.den : ℤ)) ((x.den : ℤ) * y.num))

/-- The Python float literal `0.01`, i.e. the binary64 value nearest to
`1/100` (which is not exactly representable). -/
def c001 : ℚ := double_of (mkRat 1 100)

/-- Python `int()` on a float: truncation toward zero. -/
def pyInt (q : ℚ) : ℤ := q.num.tdiv q.den

/-! ### Embedding of the source -/

/-- `_ratios2tokens(self, ratios)`: `[int(ratio / 0.01) for ratio in ratios]`,
with `/` the float division and `0.01` the float literal. -/
def _ratios2tokens (ratios : List ℚ) : List ℤ :=
  ratios.map (fun ratio => pyInt (fdiv ratio c001))

/-- `_tokens2ratios(self, tokens)`: `[token * 0.01 for token in tokens]`,
with `*` the float multiplication. -/
def _tokens2ratios (tokens : List ℤ) : List ℚ :=
  tokens.map (fun token : ℤ => fmul (token : ℚ) c001)

/-- Python exception kinds that the embedded code can raise. -/
inductive PyError where
  | assertionError
  | typeError
  | nameError
  deriving DecidableEq, Repr

/--
`_get_range_table(self, min_ratios, max_ratios)`: asserts each bound is a
float or a list (in this typed embedding a `ℚ ⊕ List ℚ` value always is one,
so the asserts cannot fire), wraps a scalar bound into a one-element list,
encodes both lists with `_ratios2tokens`, and returns the pair.  The source
contains no comparison between the min and max bounds, so the `Except`
error channel is never used.
-/
def _get_range_table (min_ratios max_ratios : ℚ ⊕ List ℚ) :
    Except PyError (List ℤ × List ℤ) :=
  let mins := match min_ratios with
    | .inl s => [s]
    | .inr l => l
  let maxs := match max_ratios with
    | .inl s => [s]
    | .inr l => l
  .ok (_ratios2tokens mins, _ratios2tokens maxs)

/--
`_constrain_func(self, tokens)`: decodes `tokens` with `_tokens2ratios`,
prunes the program at those ratios (the pruner and the `flops` analysis are
external collaborators, abstracted here as the function `pruned_flops_of`
giving the FLOPs of the program pruned at given ratios), and returns
`flops(pruned_program) < base_flops * (1 - pruned_flops)`.
-/
def _constrain_func (pruned_flops_of : List ℚ → ℚ) (base_flops pruned_flops : ℚ)
    (tokens : List ℤ) : Bool :=
  decide (pruned_flops_of (_tokens2ratios tokens) < base_flops * (1 - pruned_flops))

/--
The mutable state of the orchestration facade (an `AutoPruner` instance plus
the parameter scope it mutates).  Tensor contents are opaque to the
restore/reward logic, so they are a type parameter `V`.  `param_backup`
models the Python dict `self._param_backup` as an association list whose
keys are unique.
-/
structure TrialState (V : Type) where
  scope : String → V
  param_backup : List (String × V)
  current_ratios : List ℚ
  iter : ℕ

/-- Observable side effects of a facade step, in execution order. -/
inductive FacadeAction (V : Type) where
  | setParam : String → V → FacadeAction V
  | sendUpdate : List ℤ → ℚ → FacadeAction V

/-- `scope.find_var(name).get_tensor().set(v, place)`: point update of the scope. -/
def setVar {V : Type} (scope : String → V) (name : String) (v : V) : String → V :=
  fun n => if n = name then v else scope n

/--
`_restore(self, scope)`: for each entry of `_param_backup`, writes the backed
up tensor value back into the scope.
-/
def _restore {V : Type} (scope : String → V) (backup : List (String × V)) :
    String → V :=
  backup.foldl (fun sc p => setVar sc p.1 p.2) scope

/--
`prune(self, program)`: fetches the next tokens from the controller client
(passed in as `tokens`), stores their decoding in `_current_ratios`, and runs
the external pruner, which fills `_param_backup` with the pre-trial values of
the parameters it overwrites (passed in as `backup_from_pruner`).
-/
def prune {V : Type} (s : TrialState V) (tokens : List ℤ)
    (backup_from_pruner : List (String × V)) : TrialState V :=
  { s with
    current_ratios := _tokens2ratios tokens
    param_backup := backup_from_pruner }

/--
`reward(self, score)`: restores the scope from `_param_backup`, resets the
backup to empty, re-encodes `_current_ratios` into tokens, sends
`update(tokens, score)` to the controller client, and increments `_iter`.
The returned action list records the side effects in the order the source
performs them: all parameter restores first, then the update message.
-/
def reward {V : Type} (s : TrialState V) (score : ℚ) :
    TrialState V × List (FacadeAction V) :=
  let restored := _restore s.scope s.param_backup
  let tokens := _ratios2tokens s.current_ratios
  ({ s with
      scope := restored
      param_backup := []
      iter := s.iter + 1 },
   (s.param_backup.map fun p => FacadeAction.setParam p.1 p.2) ++
     [FacadeAction.sendUpdate tokens score])

/--
Lines 100-102 of the source: `server_ip, server_port = server_addr` followed
by `if server_ip == None or server_ip == "": server_ip = self._get_host_ip()`.
`local_ip` stands for the result of `_get_host_ip()`
(`socket.gethostbyname(socket.gethostname())`, an external call).
-/
def resolve_server_ip (server_ip : Option String) (local_ip : String) : String :=
  match server_ip with
  | none => local_ip
  | some h => if h = "" then local_ip else h

/-- `_get_init_ratios(self, program, params, pruned_flops, pruned_latency)`:
its body is `pass`, so it returns `None` whatever its arguments are. -/
def _get_init_ratios (_program : Unit) (_params : List String)
    (_pruned_flops _pruned_latency : Option ℚ) : Option (List ℚ) :=
  none

/-- The local variable names bound in `AutoPruner.__init__` (its parameters
and the locals it assigns).  Note `_program` is not among them: the instance
attribute is `self._program`, never a bare local. -/
def auto_pruner_locals : List String :=
  ["self", "program", "scope", "place", "params", "init_ratios",
   "pruned_flops", "pruned_latency", "server_addr", "init_temperature",
   "reduce_rate", "max_try_number", "max_client_num", "search_steps",
   "max_ratios", "min_ratios", "key", "is_server", "init_tokens",
   "controller", "server_ip", "server_port"]

/-- The names bound at module level in `auto_pruner.py` (lines 15-33): the
imports, `__all__`, `_logger` and the class itself.  Neither `latency` nor
`_program` is among them. -/
def module_names : List String :=
  ["socket", "logging", "np", "fluid", "Pruner", "VarWrapper", "OpWrapper",
   "GraphWrapper", "SAController", "get_logger", "flops", "ControllerServer",
   "ControllerClient", "__all__", "_logger", "AutoPruner"]

/-- Python name resolution inside `__init__`: locals, then module globals
(no builtin is named `latency` or `_program`, so builtins are omitted). -/
def resolves (name : String) : Bool :=
  auto_pruner_locals.contains name || module_names.contains name

/-- Python truthiness of a float-or-None value: `None` and `0.0` are falsy. -/
def py_truthy (x : Option ℚ) : Bool :=
  match x with
  | none => false
  | some q => decide (q ≠ 0)

/--
Lines 87-88 of the source: `if self._pruned_latency: self._base_latency =
latency(program)`.  Evaluating the branch requires resolving the bare name
`latency`.
-/
def latency_branch (pruned_latency : Option ℚ) : Except PyError Unit :=
  if py_truthy pruned_latency then
    if resolves "latency" then .ok () else .error PyError.nameError
  else .ok ()

/--
Lines 90-94 of the source: when `init_ratios is None`, `__init__` evaluates
`self._get_init_ratios(self, _program, self._params, self._pruned_flops,
self._pruned_latency)`; evaluating the argument `_program` requires resolving
that bare name (it is unbound, so a `NameError` is raised); were it bound,
the stub would return `None` and the subsequent
`init_tokens = self._ratios2tokens(self._init_ratios)` would iterate over
`None`, a `TypeError`.
-/
def compute_init_tokens (init_ratios : Option (List ℚ)) :
    Except PyError (List ℤ) :=
  match init_ratios with
  | some rs => .ok (_ratios2tokens rs)
  | none =>
    if resolves "_program" then
      match _get_init_ratios () [] none none with
      | some rs => .ok (_ratios2tokens rs)
      | none => .error PyError.typeError
    else .error PyError.nameError

/-- A token vector lies within a range table component-wise. -/
def in_range_table (range_table : List ℤ × List ℤ) (tokens : List ℤ) : Prop :=
  List.Forall₂ (· ≤ ·) range_table.1 tokens ∧
    List.Forall₂ (· ≤ ·) tokens range_table.2

/-- A concrete facade state used to instantiate theorems with hypotheses. -/
def sample_state : TrialState ℤ :=
  { scope := fun _ => 0
    param_backup := []
    current_ratios := []
    iter := 0 }

/-- A concrete facade state carrying one backed-up parameter; its current
ratios hold the float value `0.3` (`mkRat 3 10` is the rational `3/10`). -/
def sample_backup_state : TrialState ℤ :=
  { scope := fun _ => 0
    param_backup := [("conv1_weights", 5)]
    current_ratios := [mkRat 3 10]
    iter := 0 }

/-! ### Properties of the binary64 model -/

theorem bitsAux_zero (fuel : ℕ) : bitsAux fuel 0 = 0 := by
  cases fuel <;> simp [bitsAux]

theorem bitsAux_congr : ∀ (f₁ f₂ n : ℕ), n ≤ f₁ → n ≤ f₂ →
    bitsAux f₁ n = bitsAux f₂ n := by
  intro f₁
  induction f₁ with
  | zero =>
    intro f₂ n h1 _
    interval_cases n
    rw [bitsAux_zero, bitsAux_zero]
  | succ f ih =>
    intro f₂ n h1 h2
    rcases Nat.eq_zero_or_pos n with rfl | hn
    · rw [bitsAux_zero, bitsAux_zero]
    · obtain ⟨f₂', rfl⟩ := Nat.exists_eq_succ_of_ne_zero
        (Nat.pos_iff_ne_zero.mp (lt_of_lt_of_le hn h2))
      have hdiv : n / 2 < n := Nat.div_lt_self hn (by norm_num)
      simp only [bitsAux, if_neg (Nat.pos_iff_ne_zero.mp hn)]
      rw [ih f₂' (n / 2) (by omega) (by omega)]

theorem natBits_succ (n : ℕ) (hn : n ≠ 0) :
    natBits n = natBits (n / 2) + 1 := by
  obtain ⟨m, rfl⟩ := Nat.exists_eq_succ_of_ne_zero hn
  show bitsAux (m + 1) (m + 1) = bitsAux ((m + 1) / 2) ((m + 1) / 2) + 1
  simp only [bitsAux, if_neg (Nat.succ_ne_zero m)]
  rw [bitsAux_congr m ((m + 1) / 2) ((m + 1) / 2) (by omega) le_rfl]

theorem natBits_pos (n : ℕ) (hn : n ≠ 0) : 1 ≤ natBits n := by
  rw [natBits_succ n hn]; omega

theorem natBits_lt (n : ℕ) : n < 2 ^ natBits n := by
  induction n using Nat.strong_induction_on with
  | _ n ih =>
    rcases Nat.eq_zero_or_pos n with rfl | hn
    · simp [natBits, bitsAux]
    · have hne := Nat.pos_iff_ne_zero.mp hn
      have hdiv : n / 2 < n := Nat.div_lt_self hn (by norm_num)
      have h2 := ih (n / 2) hdiv
      rw [natBits_succ n hne, pow_succ]
      omega

theorem natBits_le (n : ℕ) (hn : n ≠ 0) : 2 ^ (natBits n - 1) ≤ n := by
  induction n using Nat.strong_induction_on with
  | _ n ih =>
    rcases Nat.lt_or_ge n 2 with h2 | h2
    · interval_cases n
      · exact absurd rfl hn
      · decide
    · have hd0 : n / 2 ≠ 0 := by omega
      have hdiv : n / 2 < n := Nat.div_lt_self (by omega) (by norm_num)
      have hb := natBits_pos (n / 2) hd0
      have hih := ih (n / 2) hdiv hd0
      rw [natBits_succ n (by omega)]
      have : natBits n / 1 = natBits n := Nat.div_one _
      have hstep : natBits (n / 2) + 1 - 1 = (natBits (n / 2) - 1) + 1 := by omega
      rw [hstep, pow_succ]
      have : 2 ^ (natBits (n / 2) - 1) * 2 ≤ (n / 2) * 2 := by omega
      omega

theorem zpow_toNat_div (e : ℤ) :
    (2:ℚ) ^ e = (2:ℚ) ^ e.toNat / (2:ℚ) ^ (-e).toNat := by
  have he : e = (e.toNat : ℤ) - ((-e).toNat : ℤ) := by omega
  conv_lhs => rw [he]
  rw [zpow_sub₀ (by norm_num : (2:ℚ) ≠ 0), zpow_natCast, zpow_natCast]

theorem ratLog2_le (n d : ℕ) (hn : n ≠ 0) (hd : d ≠ 0) :
    (2:ℚ) ^ ratLog2 n d ≤ (n:ℚ) / (d:ℚ)
 := by
  have hd0 : (0:ℚ) < (d:ℚ) := by
    exact_mod_cast Nat.pos_of_ne_zero hd
  simp only [ratLog2]
  set e0 : ℤ := (natBits n : ℤ) - (natBits d : ℤ) with he0
  split
  · rename_i h
    have hq : ((d:ℚ)) * (2:ℚ) ^ e0.toNat ≤ (n:ℚ) * (2:ℚ) ^ (-e0).toNat := by
      exact_mod_cast h
    rw [zpow_toNat_div]
    rw [div_le_div_iff₀ (by positivity) hd0]
    calc (2:ℚ) ^ e0.toNat * (d:ℚ) = (d:ℚ) * (2:ℚ) ^ e0.toNat := by ring
      _ ≤ (n:ℚ) * (2:ℚ) ^ (-e0).toNat := hq
  · have hbn : 1 ≤ natBits n := natBits_pos n hn
    have h1 : (2:ℚ) ^ (natBits n - 1) ≤ (n:ℚ) := by
      exact_mod_cast natBits_le n hn
    have h2 : (d:ℚ) ≤ (2:ℚ) ^ natBits d := by
      exact_mod_cast (natBits_lt d).le
    have hsub : e0 - 1 = ((natBits n - 1 : ℕ) : ℤ) - ((natBits d : ℕ) : ℤ) := by
      rw [he0]; omega
    rw [hsub, zpow_sub₀ (by norm_num : (2:ℚ) ≠ 0), zpow_natCast, zpow_natCast]
    rw [div_le_div_iff₀ (by positivity) hd0]
    calc (2:ℚ) ^ (natBits n - 1) * (d:ℚ)
        ≤ (n:ℚ) * (2:ℚ) ^ natBits d := by
          apply mul_le_mul h1 h2 hd0.le (by positivity)

theorem rne_close (N D : ℕ) (hD : D ≠ 0) :
    |((rne N D : ℕ) : ℚ) - (N:ℚ) / (D:ℚ)| ≤ 1 / 2 := by
  have hD0 : (0:ℚ) < (D:ℚ) := by exact_mod_cast Nat.pos_of_ne_zero hD
  have hmod := Nat.div_add_mod N D
  have hr : N % D < D := Nat.mod_lt _ (Nat.pos_of_ne_zero hD)
  have key : ((N / D : ℕ) : ℚ) + ((N % D : ℕ) : ℚ) / (D:ℚ) = (N:ℚ) / (D:ℚ) := by
    have h2 : ((D * (N / D) + N % D : ℕ) : ℚ) = (N:ℚ) := by exact_mod_cast congrArg Nat.cast hmod
    field_simp
    push_cast at h2 ⊢
    linarith
  simp only [rne]
  split
  · rename_i h1
    have hrq : ((N % D : ℕ) : ℚ) / (D:ℚ) < 1 / 2 := by
      rw [div_lt_iff₀ hD0]
      have : (2:ℚ) * ((N % D : ℕ) : ℚ) < (D:ℚ) := by exact_mod_cast h1
      linarith
    have hrq0 : (0:ℚ) ≤ ((N % D : ℕ) : ℚ) / (D:ℚ) := by positivity
    rw [← key, abs_le]
    constructor <;> linarith
  · split
    · rename_i h1 h2
      have hrq : 1 / 2 < ((N % D : ℕ) : ℚ) / (D:ℚ) := by
        rw [lt_div_iff₀ hD0]
        have : (D:ℚ) < 2 * ((N % D : ℕ) : ℚ) := by exact_mod_cast h2
        linarith
      have hrq1 : ((N % D : ℕ) : ℚ) / (D:ℚ) < 1 := by
        rw [div_lt_one hD0]
        exact_mod_cast hr
      push_cast
      rw [← key, abs_le]
      constructor <;> linarith
    · rename_i h1 h2
      have heq : 2 * (N % D) = D := by omega
      have hrq : ((N % D : ℕ) : ℚ) / (D:ℚ) = 1 / 2 := by
        rw [div_eq_iff hD0.ne']
        have : ((2 * (N % D) : ℕ) : ℚ) = (D:ℚ) := by exact_mod_cast congrArg Nat.cast heq
        push_cast at this
        linarith
      split
      · rw [← key, abs_le]
        constructor <;> linarith
      · push_cast
        rw [← key, abs_le]
        constructor <;> linarith

theorem cast_pow_div_pow (m : ℕ) (k : ℤ) :
    ((m * 2 ^ k.toNat : ℕ) : ℚ) / ((2 ^ (-k).toNat : ℕ) : ℚ) = (m:ℚ) * (2:ℚ) ^ k := by
  push_cast
  rw [zpow_toNat_div k]
  ring

theorem double_mag_eq (n d : ℕ) :
    double_mag n d =
      ((rne (n * 2 ^ (-(ratLog2 n d - 52)).toNat) (d * 2 ^ (ratLog2 n d - 52).toNat) : ℕ) : ℚ) *
        (2:ℚ) ^ (ratLog2 n d - 52) := by
  simp only [double_mag]
  rw [Rat.mkRat_eq_div]
  push_cast [← cast_pow_div_pow (rne (n * 2 ^ (-(ratLog2 n d - 52)).toNat)
    (d * 2 ^ (ratLog2 n d - 52).toNat)) (ratLog2 n d - 52)]
  rfl

theorem double_mag_nonneg (n d : ℕ) : 0 ≤ double_mag n d := by
  simp only [double_mag]
  rw [Rat.mkRat_eq_div]
  positivity

theorem scaled_close (n d : ℕ) (hd : d ≠ 0) (k : ℤ)
    (hE : (2:ℚ) ^ (k + 52) ≤ (n:ℚ) / (d:ℚ)) :
    |((rne (n * 2 ^ (-k).toNat) (d * 2 ^ k.toNat) : ℕ) : ℚ) * (2:ℚ) ^ k - (n:ℚ) / (d:ℚ)|
      ≤ ((n:ℚ) / (d:ℚ)) / 2 ^ 53 := by
  have h20 : (0:ℚ) < 2 := by norm_num
  have h2ne : (2:ℚ) ≠ 0 := by norm_num
  have hu : (0:ℚ) < (2:ℚ) ^ k := zpow_pos h20 k
  have hD : d * 2 ^ k.toNat ≠ 0 := by positivity
  have hd0 : (0:ℚ) < (d:ℚ) := by exact_mod_cast Nat.pos_of_ne_zero hd
  have hratio : ((n * 2 ^ (-k).toNat : ℕ) : ℚ) / ((d * 2 ^ k.toNat : ℕ) : ℚ) =
      ((n:ℚ) / (d:ℚ)) * (2:ℚ) ^ (-k) := by
    push_cast
    rw [zpow_toNat_div (-k), neg_neg, div_mul_div_comm]
  have hrne := rne_close (n * 2 ^ (-k).toNat) (d * 2 ^ k.toNat) hD
  rw [hratio] at hrne
  have key : ((rne (n * 2 ^ (-k).toNat) (d * 2 ^ k.toNat) : ℕ) : ℚ) * (2:ℚ) ^ k -
      (n:ℚ) / (d:ℚ) =
      (((rne (n * 2 ^ (-k).toNat) (d * 2 ^ k.toNat) : ℕ) : ℚ) -
        ((n:ℚ) / (d:ℚ)) * (2:ℚ) ^ (-k)) * (2:ℚ) ^ k := by
    rw [sub_mul, mul_assoc, ← zpow_add₀ h2ne, neg_add_cancel, zpow_zero, mul_one]
  rw [key, abs_mul, abs_of_pos hu]
  have h1 : |((rne (n * 2 ^ (-k).toNat) (d * 2 ^ k.toNat) : ℕ) : ℚ) -
      ((n:ℚ) / (d:ℚ)) * (2:ℚ) ^ (-k)| * (2:ℚ) ^ k ≤ (1 / 2) * (2:ℚ) ^ k :=
    mul_le_mul_of_nonneg_right hrne hu.le
  have h2 : (1 / 2 : ℚ) * (2:ℚ) ^ k = (2:ℚ) ^ (k + 52) * (2:ℚ) ^ (-(53:ℤ)) := by
    rw [← zpow_add₀ h2ne (k + 52) (-(53:ℤ)),
      show k + 52 + -(53:ℤ) = k + -1 by ring,
      zpow_add₀ h2ne k (-(1:ℤ)),
      show (2:ℚ) ^ (-(1:ℤ)) = 1 / 2 by norm_num]
    ring
  have h3 : (2:ℚ) ^ (k + 52) * (2:ℚ) ^ (-(53:ℤ)) ≤
      ((n:ℚ) / (d:ℚ)) * (2:ℚ) ^ (-(53:ℤ)) :=
    mul_le_mul_of_nonneg_right hE (zpow_pos h20 _).le
  have h4 : ((n:ℚ) / (d:ℚ)) * (2:ℚ) ^ (-(53:ℤ)) = ((n:ℚ) / (d:ℚ)) / 2 ^ 53 := by
    rw [div_eq_mul_inv ((n:ℚ) / (d:ℚ)) ((2:ℚ) ^ (53:ℕ))]
    congr 1
    rw [zpow_neg]
    congr 1
    norm_num
  linarith

theorem double_mag_close (n d : ℕ) (hn : n ≠ 0) (hd : d ≠ 0) :
    |double_mag n d - (n:ℚ) / (d:ℚ)| ≤ ((n:ℚ) / (d:ℚ)) / 2 ^ 53 := by
  rw [double_mag_eq n d]
  apply scaled_close n d hd (ratLog2 n d - 52)
  rw [show ratLog2 n d - 52 + 52 = ratLog2 n d by ring]
  exact ratLog2_le n d hn hd

theorem natAbs_div_den (q : ℚ) (hq : 0 ≤ q) :
    ((q.num.natAbs : ℕ) : ℚ) / ((q.den : ℕ) : ℚ) = q := by
  have hnum : 0 ≤ q.num := Rat.num_nonneg.mpr hq
  have h1 : ((q.num.natAbs : ℕ) : ℚ) = ((q.num : ℤ) : ℚ) := by
    rw [← Int.cast_natCast (q.num.natAbs), Int.natAbs_of_nonneg hnum]
  rw [h1, Rat.num_div_den]

theorem double_of_zero : double_of 0 = 0 := by
  simp [double_of]

theorem double_of_pos_eq (q : ℚ) (hq : 0 < q) :
    double_of q = double_mag q.num.natAbs q.den := by
  rw [double_of, if_neg hq.ne', if_pos (Rat.num_nonneg.mpr hq.le)]

theorem double_err (q : ℚ) (hq : 0 ≤ q) : |double_of q - q| ≤ q / 2 ^ 53 := by
  rcases eq_or_lt_of_le hq with h | h
  · rw [← h, double_of_zero]
    simp
  · rw [double_of_pos_eq q h]
    have hndz : q.num.natAbs ≠ 0 :=
      Int.natAbs_ne_zero.mpr (Rat.num_ne_zero.mpr h.ne')
    have := double_mag_close q.num.natAbs q.den hndz q.den_nz
    rwa [natAbs_div_den q h.le] at this

theorem double_of_nonneg (q : ℚ) (hq : 0 ≤ q) : 0 ≤ double_of q := by
  rcases eq_or_lt_of_le hq with h | h
  · rw [← h, double_of_zero]
  · rw [double_of_pos_eq q h]
    exact double_mag_nonneg _ _

theorem pyInt_eq_floor (q : ℚ) (hq : 0 ≤ q) : pyInt q = ⌊q⌋ := by
  rw [pyInt, Rat.floor_def]
  exact Int.tdiv_eq_ediv (Rat.num_nonneg.mpr hq) (Int.natCast_nonneg q.den)

theorem fmul_eq (x y : ℚ) : fmul x y = double_of (x * y) := by
  rw [fmul]
  congr 1
  rw [Rat.divInt_eq_div]
  push_cast
  rw [← div_mul_div_comm, Rat.num_div_den, Rat.num_div_den]

theorem fdiv_eq (x y : ℚ) (hy : y ≠ 0) : fdiv x y = double_of (x / y) := by
  rw [fdiv]
  congr 1
  rw [Rat.divInt_eq_div]
  have hxden : ((x.den : ℕ) : ℚ) ≠ 0 := Nat.cast_ne_zero.mpr x.den_nz
  have hynum : ((y.num : ℤ) : ℚ) ≠ 0 :=
    Int.cast_ne_zero.mpr (Rat.num_ne_zero.mpr hy)
  push_cast
  conv_rhs => rw [← Rat.num_div_den x, ← Rat.num_div_den y]
  field_simp

theorem c001_eq : c001 = mkRat 5764607523034235 576460752303423488 := by decide

theorem c001_bounds : 1 / 100 ≤ c001 ∧ c001 ≤ 1 / 100 + 1 / 2 ^ 59 := by
  rw [c001_eq, Rat.mkRat_eq_div]
  norm_num

theorem c001_pos : 0 < c001 := lt_of_lt_of_le (by norm_num) c001_bounds.1

theorem roundtrip_one (v : ℚ) (h0 : 0 ≤ v) (h9 : v ≤ 9 / 10) :
    |fmul ((pyInt (fdiv v c001) : ℤ) : ℚ) c001 - v| < 1 / 100 + 1 / 2 ^ 50 := by
  rcases eq_or_lt_of_le h0 with hz | hv
  · rw [← hz]
    have hd0 : fdiv 0 c001 = 0 := by decide
    rw [hd0]
    have hm0 : fmul ((pyInt (0:ℚ) : ℤ) : ℚ) c001 = 0 := by decide
    rw [hm0]
    norm_num
  · have hc := c001_bounds
    have hcpos := c001_pos
    have hcne : c001 ≠ 0 := hcpos.ne'
    set q : ℚ := v / c001 with hq_def
    have hq0 : 0 < q := div_pos hv hcpos
    have hqc : q * c001 = v := div_mul_cancel₀ v hcne
    rw [fdiv_eq v c001 hcne]
    set w : ℚ := double_of (v / c001) with hw_def
    have hw_err := double_err (v / c001) (le_of_lt (div_pos hv hcpos))
    have hw0 : 0 ≤ w := double_of_nonneg (v / c001) (le_of_lt (div_pos hv hcpos))
    rw [pyInt_eq_floor w hw0]
    set F : ℚ := ((⌊w⌋ : ℤ) : ℚ) with hF_def
    have hF_le : F ≤ w := Int.floor_le w
    have hF_gt : w < F + 1 := Int.lt_floor_add_one w
    have hF0 : (0:ℚ) ≤ F := by
      rw [hF_def]
      have : (0:ℤ) ≤ ⌊w⌋ := Int.floor_nonneg.mpr hw0
      exact_mod_cast this
    rw [fmul_eq]
    set B : ℚ := double_of (F * c001) with hB_def
    have htc0 : 0 ≤ F * c001 := mul_nonneg hF0 hcpos.le
    have hd_err := double_err (F * c001) htc0
    -- bounds on w around q
    have hwq : |w - q| ≤ q / 2 ^ 53 := hw_err
    have hw_ub : w ≤ q + q / 2 ^ 53 := by
      have := (abs_le.mp hwq).2
      linarith
    have hw_lb : q - q / 2 ^ 53 ≤ w := by
      have := (abs_le.mp hwq).1
      linarith
    -- bounds on F * c001
    have htc_ub : F * c001 ≤ v + v / 2 ^ 53 := by
      have h1 : F * c001 ≤ w * c001 := mul_le_mul_of_nonneg_right hF_le hcpos.le
      have h2 : w * c001 ≤ (q + q / 2 ^ 53) * c001 :=
        mul_le_mul_of_nonneg_right hw_ub hcpos.le
      have h3 : (q + q / 2 ^ 53) * c001 = v + v / 2 ^ 53 := by
        field_simp
        linarith [hqc]
      linarith
    have htc_lb : v - v / 2 ^ 53 - c001 ≤ F * c001 := by
      have h1 : (w - 1) * c001 ≤ F * c001 := by
        have : w - 1 ≤ F := by linarith
        exact mul_le_mul_of_nonneg_right this hcpos.le
      have h2 : (q - q / 2 ^ 53 - 1) * c001 ≤ (w - 1) * c001 := by
        apply mul_le_mul_of_nonneg_right _ hcpos.le
        linarith
      have h3 : (q - q / 2 ^ 53 - 1) * c001 = v - v / 2 ^ 53 - c001 := by
        field_simp
        linarith [hqc]
      linarith
    -- bounds on B
    have hB_ub : B ≤ F * c001 + (F * c001) / 2 ^ 53 := by
      have := (abs_le.mp hd_err).2
      linarith
    have hB_lb : F * c001 - (F * c001) / 2 ^ 53 ≤ B := by
      have := (abs_le.mp hd_err).1
      linarith
    rw [abs_lt]
    constructor <;> linarith [hc.1, hc.2, h9, hv.le]

/-! ### Properties of the facade -/

/-- Restoring never touches a name that is not backed up. -/
theorem restore_not_mem {V : Type} (scope : String → V)
    (backup : List (String × V)) (name : String)
    (h : name ∉ backup.map Prod.fst) :
    _restore scope backup name = scope name := by
  induction backup generalizing scope with
  | nil => rfl
  | cons p rest ih =>
    simp only [List.map_cons, List.mem_cons, not_or] at h
    show _restore (setVar scope p.1 p.2) rest name = scope name
    rw [ih _ h.2, setVar, if_neg h.1]

/-- Restoring writes each backed-up value to its name (keys unique). -/
theorem restore_mem {V : Type} (scope : String → V)
    (backup : List (String × V)) (name : String) (v : V)
    (hnd : (backup.map Prod.fst).Nodup) (hmem : (name, v) ∈ backup) :
    _restore scope backup name = v := by
  induction backup generalizing scope with
  | nil => cases hmem
  | cons p rest ih =>
    simp only [List.map_cons, List.nodup_cons] at hnd
    show _restore (setVar scope p.1 p.2) rest name = v
    rcases List.mem_cons.mp hmem with heq | hrest
    · subst heq
      have hnin : name ∉ rest.map Prod.fst := hnd.1
      rw [restore_not_mem _ _ _ hnin, setVar, if_pos rfl]
    · exact ih (setVar scope p.1 p.2) hnd.2 hrest

/-! ### Claims -/

/-- C1 counterexample: two in-bounds domain values break the claimed bound.
The float `0.009` encodes to token `0` and decodes to `0`, an error of
`0.009 > step / 2`; worse, the float `0.59` encodes to token `58` (the float
quotient `0.59 / 0.01` is just below `59` and `int()` truncates it) and
decodes to the float `58 * 0.01 ≈ 0.58`, an error strictly greater than one
whole step `0.01`. -/
theorem roundtrip_error_exceeds_half_and_full_step :
    (0 ≤ double_of ((9:ℚ)/1000) ∧ double_of ((9:ℚ)/1000) ≤ 9/10 ∧
      _tokens2ratios (_ratios2tokens [double_of ((9:ℚ)/1000)]) = [0] ∧
      ¬ |(0:ℚ) - double_of ((9:ℚ)/1000)| ≤ 1/100/2) ∧
    (0 ≤ double_of ((59:ℚ)/100) ∧ double_of ((59:ℚ)/100) ≤ 9/10 ∧
      _tokens2ratios (_ratios2tokens [double_of ((59:ℚ)/100)]) = [fmul 58 c001] ∧
      ¬ |fmul 58 c001 - double_of ((59:ℚ)/100)| ≤ 1/100) := by
  have e9 : (9:ℚ)/1000 = mkRat 9 1000 := by rw [Rat.mkRat_eq_div]; norm_num
  have e59 : (59:ℚ)/100 = mkRat 59 100 := by rw [Rat.mkRat_eq_div]; norm_num
  have e910 : (9:ℚ)/10 = mkRat 9 10 := by rw [Rat.mkRat_eq_div]; norm_num
  have hv9 : double_of ((9:ℚ)/1000) = mkRat 5188146770730811 576460752303423488 := by
    rw [e9]; decide
  have hv59 : double_of ((59:ℚ)/100) = mkRat 5314247560297185 9007199254740992 := by
    rw [e59]; decide
  have hv58 : fmul 58 c001 = mkRat 5224175567749775 9007199254740992 := by decide
  refine ⟨⟨?_, ?_, ?_, ?_⟩, ?_, ?_, ?_, ?_⟩
  · rw [hv9]; decide
  · rw [hv9, e910]; decide
  · rw [e9]; decide
  · rw [hv9, Rat.mkRat_eq_div, zero_sub, abs_neg, abs_of_nonneg (by positivity)]
    norm_num
  · rw [hv59]; decide
  · rw [hv59, e910]; decide
  · rw [e59]; decide
  · rw [hv58, hv59, Rat.mkRat_eq_div, Rat.mkRat_eq_div,
      abs_of_nonpos (by norm_num)]
    norm_num

/-- C1 amended: for every in-bounds domain value, decoding after encoding
loses strictly less than one full quantization step plus a relative
float-rounding slack: each component of the round trip is within
`0.01 + 2⁻⁵⁰` of the original (and not within `step / 2`, nor always within
`step`, as the counterexample shows). -/
theorem roundtrip_error_bound (ratios : List ℚ)
    (h : ∀ v ∈ ratios, 0 ≤ v ∧ v ≤ 9 / 10) :
    List.Forall₂ (fun v d => |d - v| < 1 / 100 + 1 / 2 ^ 50) ratios
      (_tokens2ratios (_ratios2tokens ratios)) := by
  induction ratios with
  | nil => exact List.Forall₂.nil
  | cons v rest ih =>
    simp only [_ratios2tokens, _tokens2ratios, List.map_cons]
    refine List.Forall₂.cons ?_ ?_
    · exact roundtrip_one v (h v (by simp)).1 (h v (by simp)).2
    · have hrest := ih (fun x hx => h x (by simp [hx]))
      simpa only [_ratios2tokens, _tokens2ratios] using hrest

/-- C1 witness: the bound evaluated on the singleton list `[0.3]`. -/
theorem roundtrip_error_bound_witness :
    (∀ v ∈ [(3:ℚ)/10], 0 ≤ v ∧ v ≤ 9 / 10) ∧
    List.Forall₂ (fun v d => |d - v| < 1 / 100 + 1 / 2 ^ 50) [(3:ℚ)/10]
      (_tokens2ratios (_ratios2tokens [(3:ℚ)/10])) := by
  have h : ∀ v ∈ [(3:ℚ)/10], 0 ≤ v ∧ v ≤ 9 / 10 := by
    intro v hv
    rw [List.mem_singleton] at hv
    subst hv
    constructor <;> norm_num
  exact ⟨h, roundtrip_error_bound [(3:ℚ)/10] h⟩

/-- C2 counterexample: at the float ratio `0.016`, `_ratios2tokens` yields
token `1` while `round(0.016 / 0.01) = round(1.6) = 2`; encoding is not
`round(value / step)`. -/
theorem encode_differs_from_round_at_0016 :
    _ratios2tokens [double_of ((16:ℚ)/1000)] = [1] ∧
    round ((16:ℚ)/1000 / (1/100)) = 2 := by
  have e16 : (16:ℚ)/1000 = mkRat 16 1000 := by rw [Rat.mkRat_eq_div]; norm_num
  constructor
  · rw [e16]; decide
  · norm_num [round_eq]

/-- C2 amended: `_ratios2tokens` truncates the floating-point quotient
instead of rounding: a nonnegative ratio `v` encodes to `⌊v / 0.01⌋`
computed in binary64 (`⌊fdiv v c001⌋`), which can differ from an exact
`round` or even an exact floor; the concrete scenario still holds: with
`min_ratios = [0]` and `max_ratios = [0.9]`, `_get_range_table` returns
`([0], [90])`, and the domain value `0.30` encodes to token `30`. -/
theorem encode_truncates_float_quotient :
    (∀ v : ℚ, 0 ≤ v → _ratios2tokens [v] = [⌊fdiv v c001⌋]) ∧
    _get_range_table (Sum.inr [0]) (Sum.inr [double_of ((9:ℚ)/10)]) =
      .ok ([0], [90]) ∧
    _ratios2tokens [double_of ((30:ℚ)/100)] = [30] := by
  have e910 : (9:ℚ)/10 = mkRat 9 10 := by rw [Rat.mkRat_eq_div]; norm_num
  have e30 : (30:ℚ)/100 = mkRat 30 100 := by rw [Rat.mkRat_eq_div]; norm_num
  refine ⟨?_, ?_, ?_⟩
  · intro v hv
    have hnn : 0 ≤ fdiv v c001 := by
      rw [fdiv_eq v c001 c001_pos.ne']
      exact double_of_nonneg _ (div_nonneg hv c001_pos.le)
    simp only [_ratios2tokens, List.map_cons, List.map_nil]
    rw [pyInt_eq_floor (fdiv v c001) hnn]
  · rw [e910]; rfl
  · rw [e30]; decide

/-- C2 witness: the amended encoding law evaluated at the ratio `0.25`. -/
theorem encode_truncates_witness :
    _ratios2tokens [(1:ℚ)/4] = [⌊fdiv ((1:ℚ)/4) c001⌋] :=
  encode_truncates_float_quotient.1 ((1:ℚ)/4) (by norm_num)

/-- C3 (code bug): the reward report does not name the token vector it
scores.  For the in-range token vector `[29]`, `prune` decodes it to the
float `29 * 0.01` and `reward` re-encodes that float, but
`int((29 * 0.01) / 0.01) = 28` in binary64 arithmetic, so the update sent to
the controller names token `28`, not the token `29` whose decoded ratios
were evaluated. -/
theorem reward_reports_wrong_token_at_29 :
    in_range_table ([0], [90]) [29] ∧
    (reward (prune sample_state [29] []) 1).2.getLast? =
      some (FacadeAction.sendUpdate [28] 1) ∧
    ¬ ([28] : List ℤ) = [29] := by
  refine ⟨⟨?_, ?_⟩, ?_, by decide⟩
  · exact List.Forall₂.cons (by norm_num) List.Forall₂.nil
  · exact List.Forall₂.cons (by norm_num) List.Forall₂.nil
  · have h29 : _ratios2tokens (_tokens2ratios [(29:ℤ)]) = [28] := by decide
    simp only [reward, prune, sample_state]
    rw [List.getLast?_concat, h29]

/-- C4 counterexample: with min bound `0.5` strictly above max bound `0.1`,
`_get_range_table` raises nothing and happily returns the inverted table
`([50], [10])`; no `InvalidBounds` check exists in the source. -/
theorem range_table_inverted_bounds_no_error :
    _get_range_table (Sum.inr [(1 : ℚ) / 2]) (Sum.inr [(1 : ℚ) / 10]) =
      .ok ([50], [10]) ∧ (1 : ℚ) / 10 < 1 / 2 := by
  constructor
  · rw [show (1:ℚ)/2 = mkRat 1 2 from by rw [Rat.mkRat_eq_div]; norm_num,
      show (1:ℚ)/10 = mkRat 1 10 from by rw [Rat.mkRat_eq_div]; norm_num]
    rfl
  · norm_num

/-- C4 amended: `_get_range_table` performs no min-versus-max validation at
all: for every pair of bounds (scalar or list, inverted or not) it returns
an encoded table and never an error. -/
theorem range_table_never_fails (min_ratios max_ratios : ℚ ⊕ List ℚ) :
    ∃ t, _get_range_table min_ratios max_ratios = .ok t :=
  ⟨_, rfl⟩

/-- C5 counterexample: with two parameters to search over but scalar bounds
`0.0` and `0.9`, the range table has a single entry per side, not one per
parameter. -/
theorem scalar_bounds_not_broadcast :
    _get_range_table (Sum.inl 0) (Sum.inl ((9 : ℚ) / 10)) =
      .ok ([0], [90]) ∧
    ([(0 : ℤ)] : List ℤ).length ≠
      (["conv1_weights", "conv2_weights"] : List String).length := by
  constructor
  · rw [show (9:ℚ)/10 = mkRat 9 10 from by rw [Rat.mkRat_eq_div]; norm_num]
    rfl
  · decide

/-- C5 amended: a scalar bound is wrapped into a one-element list, so the
resulting range table always has exactly one entry per side — the encoded
scalar — irrespective of how many parameters are being searched. -/
theorem scalar_bounds_make_singleton (smin smax : ℚ) :
    _get_range_table (Sum.inl smin) (Sum.inl smax) =
      .ok (_ratios2tokens [smin], _ratios2tokens [smax]) ∧
    (_ratios2tokens [smin]).length = 1 :=
  ⟨rfl, rfl⟩

/-- C6: `reward` first restores every backed-up parameter to its captured
value in the scope and empties the backup, and the update message to the
client comes after all the restore writes in the action trace. -/
theorem reward_restores_then_reports {V : Type} (s : TrialState V)
    (score : ℚ) (name : String) (v : V)
    (hnd : (s.param_backup.map Prod.fst).Nodup)
    (hmem : (name, v) ∈ s.param_backup) :
    (reward s score).1.scope name = v ∧
    (reward s score).1.param_backup = [] ∧
    (reward s score).2 =
      (s.param_backup.map fun p => FacadeAction.setParam p.1 p.2) ++
        [FacadeAction.sendUpdate (_ratios2tokens s.current_ratios) score] :=
  ⟨restore_mem s.scope s.param_backup name v hnd hmem, rfl, rfl⟩

/-- C6 witness: a state backing up `conv1_weights = 5` with current ratios
`[0.3]`: `reward` restores the value `5`, empties the backup, and the trace
is the restore followed by the update naming token `[30]`. -/
theorem reward_restores_then_reports_witness :
    (reward sample_backup_state 1).1.scope "conv1_weights" = 5 ∧
    (reward sample_backup_state 1).1.param_backup = [] ∧
    (reward sample_backup_state 1).2 =
      [FacadeAction.setParam "conv1_weights" 5,
       FacadeAction.sendUpdate [30] 1] := by
  have h := reward_restores_then_reports sample_backup_state 1
    "conv1_weights" (5 : ℤ) (by simp [sample_backup_state])
    (by simp [sample_backup_state])
  refine ⟨h.1, h.2.1, ?_⟩
  rw [h.2.2]
  have h30 : _ratios2tokens [mkRat 3 10] = [30] := by decide
  simp [sample_backup_state, h30]

/-- C7: a `None` or empty host is replaced by the locally resolved IP
address, while a non-empty host passes through unchanged. -/
theorem empty_host_auto_resolution (local_ip : String) :
    resolve_server_ip none local_ip = local_ip ∧
    resolve_server_ip (some "") local_ip = local_ip ∧
    ∀ host : String, host ≠ "" →
      resolve_server_ip (some host) local_ip = host := by
  refine ⟨rfl, rfl, fun host hne => ?_⟩
  simp [resolve_server_ip, hne]

/-- C7 witness: a concrete non-empty host is passed through unchanged. -/
theorem empty_host_auto_resolution_witness :
    resolve_server_ip (some "192.168.1.5") "10.0.0.1" = "192.168.1.5" :=
  (empty_host_auto_resolution "10.0.0.1").2.2 "192.168.1.5" (by decide)

/-- C8: `_get_init_ratios` is a stub returning `None` for all arguments, and
with `init_ratios = None` the constructor's initial-token computation fails
(concretely with a `NameError`, since the call site references the unbound
name `_program`; had it been bound, iterating the stub's `None` result would
raise a `TypeError`), so no valid initial token vector is ever produced. -/
theorem init_ratios_none_construction_fails :
    (∀ pr pa f l, _get_init_ratios pr pa f l = none) ∧
    compute_init_tokens none = .error PyError.nameError :=
  ⟨fun _ _ _ _ => rfl, rfl⟩

/-- C9: whenever `pruned_latency` is truthy, evaluating the latency branch
of the constructor fails with a `NameError`: no name `latency` is defined or
imported in the module. -/
theorem pruned_latency_truthy_fails (pl : Option ℚ)
    (h : py_truthy pl = true) :
    latency_branch pl = .error PyError.nameError := by
  unfold latency_branch
  rw [h]
  rfl

/-- C9 witness: the truthy latency target `0.1` makes the branch fail. -/
theorem pruned_latency_truthy_fails_witness :
    py_truthy (some ((1 : ℚ) / 10)) = true ∧
    latency_branch (some ((1 : ℚ) / 10)) = .error PyError.nameError := by
  have h : py_truthy (some ((1 : ℚ) / 10)) = true := by
    norm_num [py_truthy]
  exact ⟨h, pruned_latency_truthy_fails (some ((1 : ℚ) / 10)) h⟩

/-- C10: `_constrain_func` accepts a token vector exactly when the pruned
FLOPs are strictly below `base_flops * (1 - pruned_flops)`; a candidate
hitting the target FLOPs reduction exactly is rejected. -/
theorem constrain_func_strict (pruned_flops_of : List ℚ → ℚ)
    (base_flops pruned_flops : ℚ) (tokens : List ℤ) :
    (_constrain_func pruned_flops_of base_flops pruned_flops tokens = true ↔
      pruned_flops_of (_tokens2ratios tokens) <
        base_flops * (1 - pruned_flops)) ∧
    (pruned_flops_of (_tokens2ratios tokens) =
        base_flops * (1 - pruned_flops) →
      _constrain_func pruned_flops_of base_flops pruned_flops tokens =
        false) := by
  constructor
  · simp [_constrain_func]
  · intro h
    simp [_constrain_func, h]

/-- C10 witness: a pruned program whose FLOPs equal the target exactly is
rejected by `_constrain_func`. -/
theorem constrain_func_strict_witness :
    _constrain_func (fun _ => (1 : ℚ) / 2) 1 (1 / 2) [30] = false :=
  (constrain_func_strict (fun _ => (1 : ℚ) / 2) 1 (1 / 2) [30]).2
    (by norm_num)
